import Mathlib

/-!
Verification of the energy-grid-balancing-game engine.

The repository's engine components are embedded shallowly over exact rational
arithmetic.  The Batch Optimizer is the notebook `src/optimum_solutions.ipynb`,
embedded from its code.  The Dispatch Evaluator (`evaluate`), the Optimum
Solver (`solve`) and the per-week `worker` are imported by the notebook from
modules that are not part of the source tree, so they are modelled from the
specification text, as marked in each doc comment.
-/

namespace EnergyGrid

/-- Modelled from the spec (section 3, "Source"): a named generation technology with a
unit cost, an emissions intensity and a classification; `dispatchable = false`
means renewable/intermittent.  The source-definition module is not under src/. -/
structure Source where
  name : String
  unitCost : ℚ
  emissionsIntensity : ℚ
  dispatchable : Bool
deriving DecidableEq, Repr

/-- Modelled from the spec (section 3, "Capacity Vector"): a mapping from source (by
name) to installed capacity. -/
def CapVec : Type := String → ℚ

/-- Modelled from the spec (section 3, "Time Series Profile"): one timestep holds a
demand value and, per source name, an availability factor. -/
structure Timestep where
  demand : ℚ
  availability : String → ℚ

/-- Modelled from the spec (section 3, "Score"): scalar aggregates of cost, emissions
and shortfall over a profile. -/
structure Score where
  cost : ℚ
  emissions : ℚ
  shortfall : ℚ
deriving DecidableEq, Repr

/-- Modelled from the spec (section 7): the error kinds of the engine. -/
inductive Err where
  | InvalidInput
  | Infeasible
  | NotFound
deriving DecidableEq, Repr

/-- Merit-order comparison of sources by unit cost. -/
def costLE (a b : Source) : Prop := a.unitCost ≤ b.unitCost

instance : DecidableRel costLE := fun a b => inferInstanceAs (Decidable (a.unitCost ≤ b.unitCost))

instance : IsTotal Source costLE := ⟨fun a b => le_total a.unitCost b.unitCost⟩

instance : IsTrans Source costLE := ⟨fun _ _ _ h1 h2 => le_trans h1 h2⟩

/-- Modelled from the spec (section 4.1, step 2): dispatch order is
renewable/intermittent sources first, then dispatchable sources in ascending
order of unit cost. -/
def meritOrder (sources : List Source) : List Source :=
  sources.filter (fun s => !s.dispatchable) ++
    List.insertionSort costLE (sources.filter (fun s => s.dispatchable))

/-- Modelled from the spec (section 4.1, step 1): an intermittent source's deliverable
capacity is installed capacity times its availability factor; a dispatchable
source delivers up to its full installed capacity. -/
def deliverable (cap : CapVec) (t : Timestep) (s : Source) : ℚ :=
  if s.dispatchable then cap s.name else cap s.name * t.availability s.name

/-- Greedy fill of remaining demand along a list of deliverable capacities:
each source dispatches the minimum of its deliverable capacity and the demand
still remaining.  This is the core of the spec's section 4.1 dispatch policy. -/
def greedyDispatch (rem : ℚ) : List ℚ → List ℚ
  | [] => []
  | d :: ds => min d rem :: greedyDispatch (rem - min d rem) ds

/-- Demand remaining after greedily dispatching a list of deliverable capacities. -/
def remAfter (rem : ℚ) : List ℚ → ℚ
  | [] => rem
  | d :: ds => remAfter (rem - min d rem) ds

/-- The deliverable capacities of the merit-ordered sources at a timestep. -/
def delivList (sources : List Source) (cap : CapVec) (t : Timestep) : List ℚ :=
  (meritOrder sources).map (deliverable cap t)

/-- Modelled from the spec (section 4.1): the per-timestep dispatch allocation, pairing
each source (in merit order) with its dispatched energy. -/
def stepDispatchAlloc (sources : List Source) (cap : CapVec) (t : Timestep) :
    List (Source × ℚ) :=
  (meritOrder sources).zip (greedyDispatch t.demand (delivList sources cap t))

/-- Total energy dispatched from the source called `nm` at a timestep. -/
def dispatchedAmount (sources : List Source) (cap : CapVec) (t : Timestep)
    (nm : String) : ℚ :=
  (((stepDispatchAlloc sources cap t).filter (fun p => p.1.name == nm)).map
    (fun p => p.2)).sum

/-- Modelled from the spec (section 4.1, step 3): unmet demand at a timestep. -/
def stepShortfall (sources : List Source) (cap : CapVec) (t : Timestep) : ℚ :=
  t.demand - (greedyDispatch t.demand (delivList sources cap t)).sum

/-- Modelled from the spec (section 4.1, output): per-timestep cost is the sum over
dispatchable sources of dispatched energy times unit cost. -/
def stepCost (sources : List Source) (cap : CapVec) (t : Timestep) : ℚ :=
  (((stepDispatchAlloc sources cap t).filter (fun p => p.1.dispatchable)).map
    (fun p => p.1.unitCost * p.2)).sum

/-- Modelled from the spec (section 4.1, output): per-timestep emissions, analogous to
cost with emissions intensity. -/
def stepEmissions (sources : List Source) (cap : CapVec) (t : Timestep) : ℚ :=
  (((stepDispatchAlloc sources cap t).filter (fun p => p.1.dispatchable)).map
    (fun p => p.1.emissionsIntensity * p.2)).sum

/-- Modelled from the spec (section 4.1, output): the Score of a capacity vector on a
profile, aggregating cost, emissions and shortfall over all timesteps. -/
def scoreOf (sources : List Source) (cap : CapVec) (profile : List Timestep) : Score :=
  { cost := (profile.map (stepCost sources cap)).sum
    emissions := (profile.map (stepEmissions sources cap)).sum
    shortfall := (profile.map (stepShortfall sources cap)).sum }

/-- Modelled from the spec (section 4.1, edge cases): every capacity component must be
non-negative. -/
def validCapB (sources : List Source) (cap : CapVec) : Bool :=
  sources.all (fun s => decide (0 ≤ cap s.name))

/-- Modelled from the spec (section 4.1, edge cases): the profile must be non-empty and
every availability factor of an intermittent source must lie in [0,1]. -/
def validProfileB (sources : List Source) (profile : List Timestep) : Bool :=
  !profile.isEmpty &&
    profile.all (fun t => sources.all (fun s =>
      s.dispatchable ||
        (decide (0 ≤ t.availability s.name) && decide (t.availability s.name ≤ 1))))

/-- The malformed-input condition of the spec (section 4.1, edge cases), as a
proposition: empty profile, a negative capacity component, or an availability
factor outside [0,1] for an intermittent source. -/
def malformedInput (sources : List Source) (cap : CapVec) (profile : List Timestep) :
    Prop :=
  profile = [] ∨ (∃ s ∈ sources, cap s.name < 0) ∨
    (∃ t ∈ profile, ∃ s ∈ sources, s.dispatchable = false ∧
      (t.availability s.name < 0 ∨ 1 < t.availability s.name))

/-- Modelled from the spec (section 4.1): the Dispatch Evaluator `evaluate`.  Its
implementation module is not under src/.  It rejects malformed input with
`InvalidInput` and otherwise returns the Score of the simulation. -/
def evaluate (sources : List Source) (cap : CapVec) (profile : List Timestep) :
    Except Err Score :=
  if validCapB sources cap && validProfileB sources profile then
    Except.ok (scoreOf sources cap profile)
  else
    Except.error Err.InvalidInput

/-- Per-source bounds check of the Optimum Solver. -/
def inBoundsB (bounds : String → ℚ × ℚ) (sources : List Source) (cap : CapVec) : Bool :=
  sources.all (fun s =>
    decide ((bounds s.name).1 ≤ cap s.name) && decide (cap s.name ≤ (bounds s.name).2))

/-- Feasibility check of the Optimum Solver: zero aggregate shortfall. -/
def feasibleB (sources : List Source) (cap : CapVec) (profile : List Timestep) : Bool :=
  decide ((scoreOf sources cap profile).shortfall = 0)

/-- The objective minimized by the Optimum Solver: cost plus emissions. -/
def objective (sc : Score) : ℚ := sc.cost + sc.emissions

/-- Modelled from the spec (section 4.2): the Optimum Solver `solve`.  Its
implementation module is not under src/.  Each restart is an initial capacity
vector; candidates within bounds whose dispatch has zero shortfall are the
feasible results, and the best feasible result (by the cost-plus-emissions
objective) is returned; with no feasible result the solver fails with
`Infeasible`. -/
def solve (sources : List Source) (profile : List Timestep) (bounds : String → ℚ × ℚ)
    (restarts : List CapVec) : Except Err (CapVec × Score) :=
  match restarts.filter (fun cap =>
      inBoundsB bounds sources cap && feasibleB sources cap profile) with
  | [] => Except.error Err.Infeasible
  | c :: cs =>
    let best := cs.foldl (fun b x =>
      if objective (scoreOf sources x profile) < objective (scoreOf sources b profile)
      then x else b) c
    Except.ok (best, scoreOf sources best profile)

/-- Increase a single component of a capacity vector by `d`. -/
def bump (cap : CapVec) (nm : String) (d : ℚ) : CapVec :=
  fun x => if x = nm then cap x + d else cap x

/-- Weighted dispatch cost of a list of sources paired positionally with
dispatched energies. -/
def wsum (srcs : List Source) (g : List ℚ) : ℚ :=
  ((srcs.zip g).map (fun p => p.1.unitCost * p.2)).sum

end EnergyGrid

namespace EnergyGrid

/-- Embedded from src/optimum_solutions.ipynb (cell 2): `pqdm(weeks, worker, ...)`.
`pqdm.processes.pqdm` with its default `exception_behaviour` maps the worker
over the weeks in input order and captures a task's exception as that task's
result instead of raising; the outcome of one week is modelled as an
`Except Err A`. -/
def pqdmCapture {A : Type} (worker : Int → Except Err A) (weeks : List Int) :
    List (Except Err A) :=
  weeks.map worker

/-- Embedded from src/optimum_solutions.ipynb (cell 2):
`{int(k): v for k, v in zip(weeks, pqdm(weeks, worker, ...))}` — the weekly
optimum table, keyed by the week identifier coerced to an integer. -/
def optInitWeekly {A : Type} (worker : Int → Except Err A) (weeks : List Int) :
    List (Int × Except Err A) :=
  weeks.zip (pqdmCapture worker weeks)

/-- Events of a batch run: completion of one week's task, or the single write of
the persisted table. -/
inductive BatchEvent (A : Type) where
  | taskDone (week : Int) (r : Except Err A)
  | writeTable (table : List (Int × Except Err A))

/-- Whether a batch event is a write of the persisted table. -/
def isWrite {A : Type} : BatchEvent A → Bool
  | BatchEvent.writeTable _ => true
  | _ => false

/-- Embedded from src/optimum_solutions.ipynb (cells 2 and 3): the notebook first
completes every week's task (cell 2 builds the whole dictionary), then writes
the serialized table once (cell 3). -/
def notebookTrace {A : Type} (worker : Int → Except Err A) (weeks : List Int) :
    List (BatchEvent A) :=
  (weeks.map (fun w => BatchEvent.taskDone w (worker w))) ++
    [BatchEvent.writeTable (optInitWeekly worker weeks)]

/-- A Python dictionary key: the saved table uses integer keys, a table read
back from JSON has string keys. -/
inductive PyKey where
  | int (i : Int)
  | str (s : String)
deriving DecidableEq, Repr

/-- One week's record in the persisted table: per-source capacity components
and the score value, keyed by name. -/
def WeekRecord : Type := List (String × ℚ)

/-- The in-memory Weekly Optimum Table: week identifiers (integers) mapped to
week records. -/
def WeeklyTable : Type := List (Int × WeekRecord)

/-- Embedded from src/optimum_solutions.ipynb (cell 3) composed with a loader:
`json.dumps` writes each integer dictionary key as its decimal string, and
reading the JSON text back (`json.loads`; the loading module is not under
src/, modelled from the spec's "load" in section 6) yields the same entries in the
same order with those string keys. -/
def dumpsLoads (t : WeeklyTable) : List (String × WeekRecord) :=
  t.map (fun p => (toString p.1, p.2))

/-- The saved table as a Python value: integer keys. -/
def tableAsPy (t : WeeklyTable) : List (PyKey × WeekRecord) :=
  t.map (fun p => (PyKey.int p.1, p.2))

/-- The loaded table as a Python value: string keys. -/
def loadedAsPy (t : WeeklyTable) : List (PyKey × WeekRecord) :=
  (dumpsLoads t).map (fun p => (PyKey.str p.1, p.2))

/-- JSON's coercion on dictionary keys: an integer key becomes its decimal
string; string keys are unchanged. -/
def stringifyKey : PyKey → PyKey
  | PyKey.int i => PyKey.str (toString i)
  | PyKey.str s => PyKey.str s

end EnergyGrid

namespace EnergyGrid

theorem greedyDispatch_length (rem : ℚ) (ds : List ℚ) :
    (greedyDispatch rem ds).length = ds.length := by
  induction ds generalizing rem with
  | nil => rfl
  | cons d ds ih => simp [greedyDispatch, ih]

theorem greedyDispatch_append (rem : ℚ) (l1 l2 : List ℚ) :
    greedyDispatch rem (l1 ++ l2) =
      greedyDispatch rem l1 ++ greedyDispatch (remAfter rem l1) l2 := by
  induction l1 generalizing rem with
  | nil => rfl
  | cons d ds ih => simp [greedyDispatch, remAfter, ih]

theorem remAfter_append (rem : ℚ) (l1 l2 : List ℚ) :
    remAfter rem (l1 ++ l2) = remAfter (remAfter rem l1) l2 := by
  induction l1 generalizing rem with
  | nil => rfl
  | cons d ds ih => simp [remAfter, ih]

theorem remAfter_nonneg (rem : ℚ) (l : List ℚ) (h : 0 ≤ rem) : 0 ≤ remAfter rem l := by
  induction l generalizing rem with
  | nil => exact h
  | cons d ds ih => exact ih _ (sub_nonneg.mpr (min_le_right d rem))

theorem remAfter_le (rem : ℚ) (l : List ℚ) (hl : ∀ d ∈ l, 0 ≤ d) (h : 0 ≤ rem) :
    remAfter rem l ≤ rem := by
  induction l generalizing rem with
  | nil => exact le_refl rem
  | cons d ds ih =>
    have hd : 0 ≤ d := hl d (List.mem_cons_self d ds)
    have h1 : 0 ≤ rem - min d rem := sub_nonneg.mpr (min_le_right d rem)
    have h2 : remAfter (rem - min d rem) ds ≤ rem - min d rem :=
      ih _ (fun x hx => hl x (List.mem_cons_of_mem d hx)) h1
    have h3 : 0 ≤ min d rem := le_min hd h
    calc remAfter rem (d :: ds) = remAfter (rem - min d rem) ds := rfl
      _ ≤ rem - min d rem := h2
      _ ≤ rem := by linarith

theorem greedyDispatch_sum (rem : ℚ) (ds : List ℚ) (hl : ∀ d ∈ ds, 0 ≤ d)
    (h : 0 ≤ rem) : (greedyDispatch rem ds).sum = min rem ds.sum := by
  induction ds generalizing rem with
  | nil => simpa [greedyDispatch] using (min_eq_left h).symm
  | cons d ds ih =>
    have hd : 0 ≤ d := hl d (List.mem_cons_self d ds)
    have hds : ∀ x ∈ ds, 0 ≤ x := fun x hx => hl x (List.mem_cons_of_mem d hx)
    have hs : 0 ≤ ds.sum := List.sum_nonneg hds
    have h1 : 0 ≤ rem - min d rem := sub_nonneg.mpr (min_le_right d rem)
    have := ih (rem - min d rem) hds h1
    simp only [greedyDispatch, List.sum_cons, this]
    rcases le_total d rem with hc | hc
    · rw [min_eq_left hc]
      rcases le_total (rem - d) ds.sum with hc2 | hc2
      · rw [min_eq_left hc2, min_eq_left (by linarith)]
        ring
      · rw [min_eq_right hc2, min_eq_right (by linarith)]
    · rw [min_eq_right hc]
      have : rem - rem = 0 := by ring
      rw [this, min_eq_left hs, min_eq_left (by linarith)]
      ring

theorem greedyDispatch_nonneg (rem : ℚ) (ds : List ℚ) (hl : ∀ d ∈ ds, 0 ≤ d)
    (h : 0 ≤ rem) : ∀ x ∈ greedyDispatch rem ds, 0 ≤ x := by
  induction ds generalizing rem with
  | nil => intro x hx; simp [greedyDispatch] at hx
  | cons d ds ih =>
    intro x hx
    have hd : 0 ≤ d := hl d (List.mem_cons_self d ds)
    have hds : ∀ y ∈ ds, 0 ≤ y := fun y hy => hl y (List.mem_cons_of_mem d hy)
    have h1 : 0 ≤ rem - min d rem := sub_nonneg.mpr (min_le_right d rem)
    simp only [greedyDispatch, List.mem_cons] at hx
    rcases hx with hx | hx
    · subst hx; exact le_min hd h
    · exact ih _ hds h1 x hx

theorem minStep_mono {d rem1 rem2 : ℚ} (h : rem1 ≤ rem2) :
    rem1 - min d rem1 ≤ rem2 - min d rem2 := by
  rcases le_total d rem1 with h1 | h1 <;> rcases le_total d rem2 with h2 | h2 <;>
    simp [min_eq_left, min_eq_right, h1, h2] <;> linarith

theorem greedyDispatch_mono_rem (ds : List ℚ) {rem1 rem2 : ℚ} (h : rem1 ≤ rem2) :
    List.Forall₂ (fun a b => a ≤ b) (greedyDispatch rem1 ds) (greedyDispatch rem2 ds) := by
  induction ds generalizing rem1 rem2 with
  | nil => exact List.Forall₂.nil
  | cons d ds ih =>
    exact List.Forall₂.cons (min_le_min (le_refl d) h) (ih (minStep_mono h))

theorem sum_le_sum_of_forall2 {l1 l2 : List ℚ}
    (h : List.Forall₂ (fun a b => a ≤ b) l1 l2) : l1.sum ≤ l2.sum := by
  induction h with
  | nil => simp
  | cons h1 _ ih => simpa using add_le_add h1 ih

theorem sum_eq_zero_forall {l : List ℚ} (hnn : ∀ x ∈ l, 0 ≤ x) (hs : l.sum = 0) :
    ∀ x ∈ l, x = 0 := by
  induction l with
  | nil => intro x hx; simp at hx
  | cons a l ih =>
    have ha : 0 ≤ a := hnn a (List.mem_cons_self a l)
    have hl : ∀ x ∈ l, 0 ≤ x := fun x hx => hnn x (List.mem_cons_of_mem a hx)
    have hls : 0 ≤ l.sum := List.sum_nonneg hl
    have hsum : a + l.sum = 0 := by simpa using hs
    have ha0 : a = 0 := by linarith
    have hl0 : l.sum = 0 := by linarith
    intro x hx
    rcases List.mem_cons.mp hx with hx | hx
    · exact hx.trans ha0
    · exact ih hl hl0 x hx

end EnergyGrid

namespace EnergyGrid

theorem meritOrder_perm (sources : List Source) :
    List.Perm (meritOrder sources) sources := by
  unfold meritOrder
  have h1 : List.Perm
      (List.insertionSort costLE (sources.filter (fun s => s.dispatchable)))
      (sources.filter (fun s => s.dispatchable)) :=
    List.perm_insertionSort _ _
  have h2 : List.Perm
      (sources.filter (fun s => !s.dispatchable) ++
        List.insertionSort costLE (sources.filter (fun s => s.dispatchable)))
      (sources.filter (fun s => !s.dispatchable) ++
        sources.filter (fun s => s.dispatchable)) :=
    List.Perm.append_left _ h1
  have h3 : List.Perm
      (sources.filter (fun s => !s.dispatchable) ++
        sources.filter (fun s => s.dispatchable))
      (sources.filter (fun s => s.dispatchable) ++
        sources.filter (fun s => !s.dispatchable)) :=
    List.perm_append_comm
  exact (h2.trans h3).trans (List.filter_append_perm _ sources)

theorem mem_meritOrder {sources : List Source} {s : Source} :
    s ∈ meritOrder sources ↔ s ∈ sources :=
  (meritOrder_perm sources).mem_iff

theorem meritOrder_names_nodup {sources : List Source}
    (h : (sources.map Source.name).Nodup) :
    ((meritOrder sources).map Source.name).Nodup :=
  (((meritOrder_perm sources).map Source.name).nodup_iff).mpr h

theorem names_split {l1 l2 : List Source} {s : Source}
    (h : (((l1 ++ s :: l2)).map Source.name).Nodup) :
    (∀ u ∈ l1, u.name ≠ s.name) ∧ (∀ u ∈ l2, u.name ≠ s.name) := by
  rw [List.map_append, List.map_cons] at h
  rcases List.nodup_append.mp h with ⟨_, h2, h3⟩
  constructor
  · intro u hu heq
    exact h3 (List.mem_map_of_mem Source.name hu) (by simp [heq])
  · intro u hu heq
    rcases List.nodup_cons.mp h2 with ⟨h4, _⟩
    exact h4 (by simpa [heq] using List.mem_map_of_mem Source.name hu)

theorem dispatchedAmount_decomp (sources : List Source) (cap : CapVec) (t : Timestep)
    {l1 l2 : List Source} {s : Source}
    (hmerit : meritOrder sources = l1 ++ s :: l2)
    (hn1 : ∀ u ∈ l1, u.name ≠ s.name) (hn2 : ∀ u ∈ l2, u.name ≠ s.name) :
    dispatchedAmount sources cap t s.name =
      min (deliverable cap t s) (remAfter t.demand (l1.map (deliverable cap t))) := by
  have hdl : delivList sources cap t =
      l1.map (deliverable cap t) ++
        deliverable cap t s :: l2.map (deliverable cap t) := by
    simp [delivList, hmerit]
  have hlen : l1.length = (l1.map (deliverable cap t)).length := by simp
  have hg : greedyDispatch t.demand (delivList sources cap t) =
      greedyDispatch t.demand (l1.map (deliverable cap t)) ++
        min (deliverable cap t s) (remAfter t.demand (l1.map (deliverable cap t))) ::
          greedyDispatch
            (remAfter t.demand (l1.map (deliverable cap t)) -
              min (deliverable cap t s)
                (remAfter t.demand (l1.map (deliverable cap t))))
            (l2.map (deliverable cap t)) := by
    rw [hdl, greedyDispatch_append]
    rfl
  have hlen2 : l1.length =
      (greedyDispatch t.demand (l1.map (deliverable cap t))).length := by
    rw [greedyDispatch_length]; simp
  have hzip : stepDispatchAlloc sources cap t =
      l1.zip (greedyDispatch t.demand (l1.map (deliverable cap t))) ++
        (s, min (deliverable cap t s)
          (remAfter t.demand (l1.map (deliverable cap t)))) ::
          l2.zip (greedyDispatch
            (remAfter t.demand (l1.map (deliverable cap t)) -
              min (deliverable cap t s)
                (remAfter t.demand (l1.map (deliverable cap t))))
            (l2.map (deliverable cap t))) := by
    rw [stepDispatchAlloc, hmerit, hg]
    rw [List.zip_append hlen2]
    rfl
  have hf1 : ∀ p ∈ l1.zip (greedyDispatch t.demand (l1.map (deliverable cap t))),
      (p.1.name == s.name) = false := by
    intro p hp
    have := (List.of_mem_zip hp).1
    simpa using hn1 p.1 this
  have hf2 : ∀ p ∈ l2.zip (greedyDispatch
      (remAfter t.demand (l1.map (deliverable cap t)) -
        min (deliverable cap t s)
          (remAfter t.demand (l1.map (deliverable cap t))))
      (l2.map (deliverable cap t))),
      (p.1.name == s.name) = false := by
    intro p hp
    have := (List.of_mem_zip hp).1
    simpa using hn2 p.1 this
  rw [dispatchedAmount, hzip, List.filter_append, List.filter_cons]
  rw [List.filter_eq_nil_iff.mpr (by intro a ha; simp [hf1 a ha]),
    List.filter_eq_nil_iff.mpr (by intro a ha; simp [hf2 a ha])]
  simp

end EnergyGrid

namespace EnergyGrid

theorem deliverable_nonneg {sources : List Source} (cap : CapVec) (t : Timestep)
    (hcap : ∀ s ∈ sources, 0 ≤ cap s.name)
    (havail : ∀ s ∈ sources, s.dispatchable = false → 0 ≤ t.availability s.name)
    {s : Source} (hs : s ∈ sources) : 0 ≤ deliverable cap t s := by
  unfold deliverable
  cases hd : s.dispatchable with
  | true => simpa [hd] using hcap s hs
  | false =>
    simpa [hd] using mul_nonneg (hcap s hs) (havail s hs hd)

theorem merit_position {sources : List Source} {A B : Source}
    (hA : A ∈ sources) (hB : B ∈ sources)
    (hAd : A.dispatchable = true) (hBd : B.dispatchable = true)
    (hcost : A.unitCost < B.unitCost) :
    ∃ l1 l2 l3, meritOrder sources = l1 ++ A :: (l2 ++ B :: l3) := by
  have hAdl : A ∈ sources.filter (fun s => s.dispatchable) :=
    List.mem_filter.mpr ⟨hA, by simp [hAd]⟩
  have hBdl : B ∈ sources.filter (fun s => s.dispatchable) :=
    List.mem_filter.mpr ⟨hB, by simp [hBd]⟩
  have hAs : A ∈ List.insertionSort costLE (sources.filter (fun s => s.dispatchable)) :=
    (List.perm_insertionSort costLE _).mem_iff.mpr hAdl
  have hBs : B ∈ List.insertionSort costLE (sources.filter (fun s => s.dispatchable)) :=
    (List.perm_insertionSort costLE _).mem_iff.mpr hBdl
  have hsorted : List.Pairwise costLE
      (List.insertionSort costLE (sources.filter (fun s => s.dispatchable))) :=
    List.sorted_insertionSort costLE _
  obtain ⟨s1, s2, hBsplit⟩ := List.append_of_mem hBs
  have hAmem : A ∈ s1 ++ B :: s2 := hBsplit ▸ hAs
  have hA1 : A ∈ s1 := by
    rcases List.mem_append.mp hAmem with h | h
    · exact h
    · rcases List.mem_cons.mp h with h | h
      · exact absurd (h ▸ hcost) (lt_irrefl _)
      · rw [hBsplit] at hsorted
        rcases List.pairwise_append.mp hsorted with ⟨_, hp2, _⟩
        have := (List.pairwise_cons.mp hp2).1 A h
        exact absurd this (not_le.mpr hcost)
  obtain ⟨u, v, hs1⟩ := List.append_of_mem hA1
  refine ⟨sources.filter (fun s => !s.dispatchable) ++ u, v, s2, ?_⟩
  rw [meritOrder, hBsplit, hs1]
  simp [List.append_assoc]

theorem dispatch_nonneg_all {sources : List Source} (cap : CapVec) (t : Timestep)
    (hcap : ∀ s ∈ sources, 0 ≤ cap s.name)
    (havail : ∀ s ∈ sources, s.dispatchable = false → 0 ≤ t.availability s.name)
    {l : List Source} (hl : ∀ u ∈ l, u ∈ sources) :
    ∀ d ∈ l.map (deliverable cap t), 0 ≤ d := by
  intro d hd
  rcases List.mem_map.mp hd with ⟨u, hu, rfl⟩
  exact deliverable_nonneg cap t hcap havail (hl u hu)

end EnergyGrid

namespace EnergyGrid

/-- C2: at every timestep, after the intermittent/renewable sources are
dispatched first up to their deliverable capacity, the Dispatch Evaluator
covers remaining demand by dispatchable sources in ascending unit-cost order:
for dispatchable sources A and B with A's unit cost strictly below B's, if any
energy of B is dispatched then A is already dispatched up to its full
deliverable capacity, so the cheaper source is always preferred when covering a
shortfall. -/
theorem merit_order_preference (sources : List Source) (cap : CapVec) (t : Timestep)
    (A B : Source)
    (hnd : (sources.map Source.name).Nodup)
    (hA : A ∈ sources) (hB : B ∈ sources)
    (hAd : A.dispatchable = true) (hBd : B.dispatchable = true)
    (hcost : A.unitCost < B.unitCost)
    (hcap : ∀ s ∈ sources, 0 ≤ cap s.name)
    (havail : ∀ s ∈ sources, s.dispatchable = false → 0 ≤ t.availability s.name)
    (hdem : 0 ≤ t.demand)
    (hpos : 0 < dispatchedAmount sources cap t B.name) :
    dispatchedAmount sources cap t A.name = deliverable cap t A := by
  obtain ⟨l1, l2, l3, hm⟩ := merit_position hA hB hAd hBd hcost
  have hnodup := meritOrder_names_nodup hnd
  have hnA := names_split (hm ▸ hnodup)
  have hmB : meritOrder sources = (l1 ++ A :: l2) ++ B :: l3 := by
    rw [hm]; simp [List.append_assoc]
  have hnB := names_split (hmB ▸ hnodup)
  have dAeq := dispatchedAmount_decomp sources cap t hm hnA.1 hnA.2
  have dBeq := dispatchedAmount_decomp sources cap t hmB hnB.1 hnB.2
  have hl2mem : ∀ u ∈ l2, u ∈ sources := by
    intro u hu
    have : u ∈ meritOrder sources := by
      rw [hm]
      exact List.mem_append_right _
        (List.mem_cons_of_mem _ (List.mem_append_left _ hu))
    exact mem_meritOrder.mp this
  have hl2nn : ∀ d ∈ l2.map (deliverable cap t), 0 ≤ d :=
    dispatch_nonneg_all cap t hcap havail hl2mem
  have hr1 : 0 ≤ remAfter t.demand (l1.map (deliverable cap t)) :=
    remAfter_nonneg _ _ hdem
  have hrB : remAfter t.demand ((l1 ++ A :: l2).map (deliverable cap t)) =
      remAfter
        (remAfter t.demand (l1.map (deliverable cap t)) -
          min (deliverable cap t A) (remAfter t.demand (l1.map (deliverable cap t))))
        (l2.map (deliverable cap t)) := by
    rw [List.map_append, remAfter_append]
    rfl
  have hpos2 : 0 < remAfter t.demand ((l1 ++ A :: l2).map (deliverable cap t)) := by
    rw [dBeq] at hpos
    exact (lt_min_iff.mp hpos).2
  have h0 : 0 ≤ remAfter t.demand (l1.map (deliverable cap t)) -
      min (deliverable cap t A) (remAfter t.demand (l1.map (deliverable cap t))) :=
    sub_nonneg.mpr (min_le_right _ _)
  have hle : remAfter t.demand ((l1 ++ A :: l2).map (deliverable cap t)) ≤
      remAfter t.demand (l1.map (deliverable cap t)) -
        min (deliverable cap t A) (remAfter t.demand (l1.map (deliverable cap t))) := by
    rw [hrB]
    exact remAfter_le _ _ hl2nn h0
  have hmin : min (deliverable cap t A)
      (remAfter t.demand (l1.map (deliverable cap t))) = deliverable cap t A := by
    rcases le_total (deliverable cap t A)
        (remAfter t.demand (l1.map (deliverable cap t))) with hc | hc
    · exact min_eq_left hc
    · exfalso
      rw [min_eq_right hc] at hle
      linarith
  rw [dAeq, hmin]

/-- Witness for C2 at a concrete instance: two dispatchable sources, gas at unit
cost 1 and coal at unit cost 5, installed capacities 50 and 100 against demand
100; coal is dispatched (50 > 0), and gas is indeed dispatched at its full
deliverable capacity. -/
theorem merit_order_preference_witness :
    0 < dispatchedAmount [⟨"coal", 5, 3, true⟩, ⟨"gas", 1, 2, true⟩]
        (fun nm => if nm = "gas" then 50 else 100) ⟨100, fun _ => 0⟩ "coal" ∧
      dispatchedAmount [⟨"coal", 5, 3, true⟩, ⟨"gas", 1, 2, true⟩]
        (fun nm => if nm = "gas" then 50 else 100) ⟨100, fun _ => 0⟩ "gas" =
        deliverable (fun nm => if nm = "gas" then 50 else 100) ⟨100, fun _ => 0⟩
          ⟨"gas", 1, 2, true⟩ := by
  have hpos : (0 : ℚ) < dispatchedAmount [⟨"coal", 5, 3, true⟩, ⟨"gas", 1, 2, true⟩]
      (fun nm => if nm = "gas" then 50 else 100) ⟨100, fun _ => 0⟩ "coal" := by
    simp +decide [dispatchedAmount, stepDispatchAlloc, delivList, meritOrder,
      List.insertionSort, List.orderedInsert, costLE, greedyDispatch, deliverable,
      min_def]
  refine ⟨hpos, ?_⟩
  exact merit_order_preference
    [⟨"coal", 5, 3, true⟩, ⟨"gas", 1, 2, true⟩]
    (fun nm => if nm = "gas" then 50 else 100) ⟨100, fun _ => 0⟩
    ⟨"gas", 1, 2, true⟩ ⟨"coal", 5, 3, true⟩
    (by simp +decide) (by simp +decide) (by simp +decide) rfl rfl (by norm_num)
    (by intro s hs; simp +decide at hs; rcases hs with h | h <;> simp [h])
    (by intro s hs hd; simp +decide at hs; rcases hs with h | h <;> simp [h] at hd)
    (by norm_num) hpos

end EnergyGrid

namespace EnergyGrid

theorem foldlBest_mem (sources : List Source) (profile : List Timestep)
    (c : CapVec) (cs : List CapVec) :
    cs.foldl (fun b x =>
      if objective (scoreOf sources x profile) < objective (scoreOf sources b profile)
      then x else b) c ∈ c :: cs := by
  induction cs generalizing c with
  | nil => exact List.mem_cons_self c []
  | cons x xs ih =>
    rw [List.foldl_cons]
    by_cases hc : objective (scoreOf sources x profile) <
        objective (scoreOf sources c profile)
    · rw [if_pos hc]
      rcases List.mem_cons.mp (ih x) with h1 | h1
      · exact List.mem_cons.mpr (Or.inr (List.mem_cons.mpr (Or.inl h1)))
      · exact List.mem_cons.mpr (Or.inr (List.mem_cons.mpr (Or.inr h1)))
    · rw [if_neg hc]
      rcases List.mem_cons.mp (ih c) with h1 | h1
      · exact List.mem_cons.mpr (Or.inl h1)
      · exact List.mem_cons.mpr (Or.inr (List.mem_cons.mpr (Or.inr h1)))

theorem delivList_nonneg (sources : List Source) (cap : CapVec) (t : Timestep)
    (hcap : ∀ s ∈ sources, 0 ≤ cap s.name)
    (havail : ∀ s ∈ sources, s.dispatchable = false → 0 ≤ t.availability s.name) :
    ∀ d ∈ delivList sources cap t, 0 ≤ d :=
  dispatch_nonneg_all cap t hcap havail (fun _ hu => mem_meritOrder.mp hu)

theorem stepShortfall_nonneg (sources : List Source) (cap : CapVec) (t : Timestep)
    (hdem : 0 ≤ t.demand)
    (hcap : ∀ s ∈ sources, 0 ≤ cap s.name)
    (havail : ∀ s ∈ sources, s.dispatchable = false → 0 ≤ t.availability s.name) :
    0 ≤ stepShortfall sources cap t := by
  have hnn := delivList_nonneg sources cap t hcap havail
  rw [stepShortfall, greedyDispatch_sum t.demand _ hnn hdem]
  have := min_le_left t.demand (delivList sources cap t).sum
  linarith

/-- C1: whenever `solve` returns normally (does not fail with Infeasible), the
returned capacity vector, evaluated by the Dispatch Evaluator against the same
profile, produces shortfall 0 at every timestep of the profile. -/
theorem solve_feasible (sources : List Source) (profile : List Timestep)
    (bounds : String → ℚ × ℚ) (restarts : List CapVec) (cap : CapVec) (sc : Score)
    (hdem : ∀ t ∈ profile, 0 ≤ t.demand)
    (havail : ∀ t ∈ profile, ∀ s ∈ sources,
      s.dispatchable = false → 0 ≤ t.availability s.name)
    (hlo : ∀ s ∈ sources, 0 ≤ (bounds s.name).1)
    (hok : solve sources profile bounds restarts = Except.ok (cap, sc)) :
    ∀ t ∈ profile, stepShortfall sources cap t = 0 := by
  rw [solve] at hok
  rcases hfil : restarts.filter (fun c =>
      inBoundsB bounds sources c && feasibleB sources c profile) with _ | ⟨c, cs⟩
  · rw [hfil] at hok
    exact absurd hok (by simp)
  · rw [hfil] at hok
    simp only [Except.ok.injEq, Prod.mk.injEq] at hok
    have hbest : cs.foldl (fun b x =>
        if objective (scoreOf sources x profile) <
          objective (scoreOf sources b profile) then x else b) c ∈ c :: cs :=
      foldlBest_mem sources profile c cs
    rw [hok.1] at hbest
    rw [← hfil] at hbest
    rcases List.mem_filter.mp hbest with ⟨_, hpred⟩
    rw [Bool.and_eq_true] at hpred
    rcases hpred with ⟨hbnd, hfeas⟩
    have hsum : (profile.map (stepShortfall sources cap)).sum = 0 :=
      of_decide_eq_true hfeas
    have hcap : ∀ s ∈ sources, 0 ≤ cap s.name := by
      intro s hs
      have := List.all_eq_true.mp hbnd s hs
      rw [Bool.and_eq_true] at this
      rcases this with ⟨h1, _⟩
      exact le_trans (hlo s hs) (of_decide_eq_true h1)
    have hnn : ∀ x ∈ profile.map (stepShortfall sources cap), 0 ≤ x := by
      intro x hx
      rcases List.mem_map.mp hx with ⟨t, ht, rfl⟩
      exact stepShortfall_nonneg sources cap t (hdem t ht) hcap
        (fun s hs => havail t ht s hs)
    intro t ht
    exact sum_eq_zero_forall hnn hsum _ (List.mem_map_of_mem _ ht)

/-- Witness for C1 at a concrete instance: one dispatchable gas source of unit
cost 1, demand 100 for one timestep, bounds [0, 1000], one restart at capacity
100; `solve` returns normally and the per-timestep shortfall is 0. -/
theorem solve_feasible_witness :
    stepShortfall [⟨"gas", 1, 0, true⟩] (fun _ => 100)
      ({ demand := 100, availability := fun _ => 1 } : Timestep) = 0 := by
  have hbnd : inBoundsB (fun _ => (0, 1000)) [⟨"gas", 1, 0, true⟩]
      (fun _ => 100) = true := by
    simp [inBoundsB]
    norm_num
  have hfeas : feasibleB [⟨"gas", 1, 0, true⟩] (fun _ => 100)
      [⟨100, fun _ => 1⟩] = true := by
    simp [feasibleB, scoreOf, stepShortfall, delivList, meritOrder,
      List.insertionSort, List.orderedInsert, costLE, greedyDispatch, deliverable,
      min_def]
  have hok : solve [⟨"gas", 1, 0, true⟩] [⟨100, fun _ => 1⟩] (fun _ => (0, 1000))
      [fun _ => 100] =
      Except.ok ((fun _ => 100 : CapVec),
        scoreOf [⟨"gas", 1, 0, true⟩] (fun _ => 100) [⟨100, fun _ => 1⟩]) := by
    rw [solve]
    rw [List.filter_cons_of_pos (by rw [hbnd, hfeas]; rfl)]
    rfl
  exact solve_feasible [⟨"gas", 1, 0, true⟩] [⟨100, fun _ => 1⟩]
    (fun _ => (0, 1000)) [fun _ => 100] (fun _ => 100) _
    (by norm_num) (by simp) (by norm_num) hok
    ({ demand := 100, availability := fun _ => 1 } : Timestep)
    (List.mem_singleton.mpr rfl)

end EnergyGrid

namespace EnergyGrid

/-- C6: when no capacity vector within the given bounds produces zero shortfall
on the profile, `solve` fails with Infeasible instead of returning a capacity
vector. -/
theorem solve_infeasible (sources : List Source) (profile : List Timestep)
    (bounds : String → ℚ × ℚ) (restarts : List CapVec)
    (hinf : ∀ cap : CapVec, inBoundsB bounds sources cap = true →
      (scoreOf sources cap profile).shortfall ≠ 0) :
    solve sources profile bounds restarts = Except.error Err.Infeasible := by
  rw [solve]
  have hfil : restarts.filter (fun c =>
      inBoundsB bounds sources c && feasibleB sources c profile) = [] := by
    rw [List.filter_eq_nil_iff]
    intro c _ hpred
    rw [Bool.and_eq_true] at hpred
    exact hinf c hpred.1 (of_decide_eq_true hpred.2)
  rw [hfil]

/-- Witness for C6 at the spec's Scenario 2: demand 100, a single intermittent
source with availability factor one half, bounds capped at 150; the maximum
deliverable is 75 < 100, so `solve` fails with Infeasible. -/
theorem solve_infeasible_witness :
    solve [⟨"wind", 0, 0, false⟩] [⟨100, fun _ => 1/2⟩] (fun _ => (0, 150))
      [fun _ => 150] = Except.error Err.Infeasible := by
  apply solve_infeasible
  intro cap hb
  simp [inBoundsB] at hb
  simp [scoreOf, stepShortfall, delivList, meritOrder, List.insertionSort,
    deliverable, greedyDispatch]
  have h75 : cap "wind" * (2:ℚ)⁻¹ ≤ 75 := by linarith [hb.2]
  have hmin : cap "wind" * (2:ℚ)⁻¹ ⊓ 100 = cap "wind" * (2:ℚ)⁻¹ :=
    inf_eq_left.mpr (by linarith)
  rw [hmin]
  intro hcontra
  linarith

/-- C4: the Dispatch Evaluator is a deterministic function of its inputs: two
calls of `evaluate` with identical source set, capacity vector and profile
return identical results, with no hidden randomness. -/
theorem evaluate_deterministic (s1 s2 : List Source) (c1 c2 : CapVec)
    (p1 p2 : List Timestep) (hs : s1 = s2) (hc : c1 = c2) (hp : p1 = p2) :
    evaluate s1 c1 p1 = evaluate s2 c2 p2 := by
  subst hs; subst hc; subst hp; rfl

/-- Witness for C4 at a concrete instance: two calls with identical inputs give
identical results. -/
theorem evaluate_deterministic_witness :
    evaluate [⟨"solar", 0, 0, false⟩] (fun _ => 50) [⟨10, fun _ => 1⟩] =
      evaluate [⟨"solar", 0, 0, false⟩] (fun _ => 50) [⟨10, fun _ => 1⟩] :=
  evaluate_deterministic _ _ _ _ _ _ rfl rfl rfl

/-- C5: `evaluate` fails with InvalidInput exactly when the input is malformed
(empty profile, a negative capacity component, or an availability factor of an
intermittent source outside [0,1]); on any other input it returns the Score of
the inputs as given, never silently clamping or correcting them. -/
theorem evaluate_invalid_iff (sources : List Source) (cap : CapVec)
    (profile : List Timestep) :
    (evaluate sources cap profile = Except.error Err.InvalidInput ↔
      malformedInput sources cap profile) ∧
    (¬ malformedInput sources cap profile →
      evaluate sources cap profile = Except.ok (scoreOf sources cap profile)) := by
  have hm : ¬ malformedInput sources cap profile ↔
      (profile ≠ [] ∧ (∀ s ∈ sources, 0 ≤ cap s.name) ∧
        (∀ t ∈ profile, ∀ s ∈ sources, s.dispatchable = false →
          0 ≤ t.availability s.name ∧ t.availability s.name ≤ 1)) := by
    rw [malformedInput]
    push_neg
    tauto
  have key : (validCapB sources cap && validProfileB sources profile) = true ↔
      ¬ malformedInput sources cap profile := by
    rw [Bool.and_eq_true, hm]
    have hv1 : validCapB sources cap = true ↔ ∀ s ∈ sources, 0 ≤ cap s.name := by
      simp [validCapB]
    have hv2 : validProfileB sources profile = true ↔
        (profile ≠ [] ∧ ∀ t ∈ profile, ∀ s ∈ sources, s.dispatchable = false →
          0 ≤ t.availability s.name ∧ t.availability s.name ≤ 1) := by
      simp only [validProfileB, Bool.and_eq_true, Bool.not_eq_true',
        List.all_eq_true, Bool.or_eq_true, decide_eq_true_eq]
      constructor
      · rintro ⟨hne, hall⟩
        refine ⟨by simpa [List.isEmpty_iff] using hne, ?_⟩
        intro t ht s hs hsd
        rcases hall t ht s hs with h | h
        · rw [hsd] at h; cases h
        · exact h
      · rintro ⟨hne, hall⟩
        refine ⟨by simpa [List.isEmpty_iff] using hne, ?_⟩
        intro t ht s hs
        cases hsd : s.dispatchable with
        | true => exact Or.inl rfl
        | false => exact Or.inr (hall t ht s hs hsd)
    rw [hv1, hv2]
    tauto
  constructor
  · by_cases hcond : (validCapB sources cap && validProfileB sources profile) = true
    · rw [evaluate, if_pos hcond]
      constructor
      · intro h; cases h
      · intro hmal
        exact absurd hmal (by simpa using key.mp hcond)
    · rw [evaluate, if_neg hcond]
      constructor
      · intro _
        by_contra h
        exact hcond (key.mpr h)
      · intro _; rfl
  · intro h
    rw [evaluate, if_pos (key.mpr h)]

/-- Witness for C5 at a concrete instance: the empty profile is rejected with
InvalidInput. -/
theorem evaluate_invalid_iff_witness :
    evaluate [⟨"solar", 0, 0, false⟩] (fun _ => 1) [] =
      Except.error Err.InvalidInput :=
  (evaluate_invalid_iff [⟨"solar", 0, 0, false⟩] (fun _ => 1) []).1.mpr (Or.inl rfl)

end EnergyGrid

namespace EnergyGrid

theorem bump_apply_ne (cap : CapVec) (nm x : String) (inc : ℚ) (h : x ≠ nm) :
    bump cap nm inc x = cap x := by
  simp [bump, h]

theorem bump_apply_eq (cap : CapVec) (nm : String) (inc : ℚ) :
    bump cap nm inc nm = cap nm + inc := by
  simp [bump]

theorem deliverable_bump_ne (cap : CapVec) (t : Timestep) (nm : String) (inc : ℚ)
    {s : Source} (h : s.name ≠ nm) :
    deliverable (bump cap nm inc) t s = deliverable cap t s := by
  simp [deliverable, bump_apply_ne cap nm s.name inc h]

theorem deliverable_bump_mono {sources : List Source} (cap : CapVec) (t : Timestep)
    (nm : String) {inc : ℚ} (hinc : 0 ≤ inc)
    (havail : ∀ s ∈ sources, s.dispatchable = false → 0 ≤ t.availability s.name)
    {s : Source} (hs : s ∈ sources) :
    deliverable cap t s ≤ deliverable (bump cap nm inc) t s := by
  by_cases h : s.name = nm
  · cases hd : s.dispatchable with
    | true =>
      have h1 : deliverable cap t s = cap nm := by simp [deliverable, hd, h]
      have h2 : deliverable (bump cap nm inc) t s = cap nm + inc := by
        simp [deliverable, hd, bump, h]
      rw [h1, h2]
      linarith
    | false =>
      have hav : 0 ≤ t.availability nm := h ▸ havail s hs hd
      have h1 : deliverable cap t s = cap nm * t.availability nm := by
        simp [deliverable, hd, h]
      have h2 : deliverable (bump cap nm inc) t s =
          (cap nm + inc) * t.availability nm := by
        simp [deliverable, hd, bump, h]
      rw [h1, h2]
      exact mul_le_mul_of_nonneg_right (by linarith) hav
  · rw [deliverable_bump_ne cap t nm inc h]

theorem bump_cap_nonneg {sources : List Source} (cap : CapVec) (nm : String)
    {inc : ℚ} (hinc : 0 ≤ inc) (hcap : ∀ s ∈ sources, 0 ≤ cap s.name) :
    ∀ s ∈ sources, 0 ≤ bump cap nm inc s.name := by
  intro s hs
  by_cases h : s.name = nm
  · rw [h, bump_apply_eq]
    have := hcap s hs
    rw [h] at this
    linarith
  · rw [bump_apply_ne cap nm s.name inc h]
    exact hcap s hs

theorem stepShortfall_bump_mono (sources : List Source) (cap : CapVec)
    (t : Timestep) (nm : String) {inc : ℚ} (hinc : 0 ≤ inc) (hdem : 0 ≤ t.demand)
    (hcap : ∀ s ∈ sources, 0 ≤ cap s.name)
    (havail : ∀ s ∈ sources, s.dispatchable = false → 0 ≤ t.availability s.name) :
    stepShortfall sources (bump cap nm inc) t ≤ stepShortfall sources cap t := by
  have hnn := delivList_nonneg sources cap t hcap havail
  have hnn2 := delivList_nonneg sources (bump cap nm inc) t
    (bump_cap_nonneg cap nm hinc hcap) havail
  rw [stepShortfall, stepShortfall, greedyDispatch_sum _ _ hnn hdem,
    greedyDispatch_sum _ _ hnn2 hdem]
  have hsum : (delivList sources cap t).sum ≤
      (delivList sources (bump cap nm inc) t).sum := by
    rw [delivList, delivList]
    refine List.sum_le_sum ?_
    intro s hs
    exact deliverable_bump_mono cap t nm hinc havail (mem_meritOrder.mp hs)
  have := min_le_min (le_refl t.demand) hsum
  linarith

theorem wsum_nil (srcs : List Source) : wsum srcs [] = 0 := by
  simp [wsum]

theorem wsum_cons (s : Source) (srcs : List Source) (x : ℚ) (g : List ℚ) :
    wsum (s :: srcs) (x :: g) = s.unitCost * x + wsum srcs g := by
  simp [wsum]

theorem wsum_append_cons (u v : List Source) (a : Source) (gu gv : List ℚ) (x : ℚ)
    (hlen : u.length = gu.length) :
    wsum (u ++ a :: v) (gu ++ x :: gv) =
      wsum u gu + a.unitCost * x + wsum v gv := by
  rw [wsum, List.zip_append hlen]
  simp [wsum]
  ring

theorem wsum_sub_le (c : ℚ) (srcs : List Source) :
    ∀ (g gp : List ℚ), List.Forall₂ (fun a b => a ≤ b) gp g →
      srcs.length = g.length → (∀ s ∈ srcs, s.unitCost ≤ c) →
      wsum srcs g - wsum srcs gp ≤ c * (g.sum - gp.sum) := by
  induction srcs with
  | nil =>
    intro g gp _ hlen _
    have : g = [] := List.length_eq_zero.mp hlen.symm
    subst this
    cases ‹List.Forall₂ _ gp []›
    simp [wsum_nil]
  | cons s ss ih =>
    intro g gp hf hlen hc
    cases g with
    | nil => cases hlen
    | cons x gt =>
      cases hf with
      | cons hx hrest =>
        rename_i xp gtp
        rw [wsum_cons, wsum_cons]
        have hlen2 : ss.length = gt.length := by simpa using hlen
        have hcs : ∀ u ∈ ss, u.unitCost ≤ c := fun u hu => hc u (List.mem_cons_of_mem s hu)
        have hih := ih gt gtp hrest hlen2 hcs
        have hsc : s.unitCost ≤ c := hc s (List.mem_cons_self s ss)
        have hxx : 0 ≤ x - xp := sub_nonneg.mpr hx
        have hmul : s.unitCost * (x - xp) ≤ c * (x - xp) :=
          mul_le_mul_of_nonneg_right hsc hxx
        have hring1 : s.unitCost * (x - xp) = s.unitCost * x - s.unitCost * xp := by ring
        have hring2 : c * (x - xp) = c * x - c * xp := by ring
        have hring3 : c * ((x + gt.sum) - (xp + gtp.sum)) =
            (c * x - c * xp) + c * (gt.sum - gtp.sum) := by ring
        simp only [List.sum_cons]
        rw [hring3]
        rw [hring1, hring2] at hmul
        linarith

end EnergyGrid

namespace EnergyGrid

theorem stepCost_eq_wsum (sources : List Source) (cap : CapVec) (t : Timestep) :
    stepCost sources cap t =
      wsum (List.insertionSort costLE (sources.filter (fun s => s.dispatchable)))
        (greedyDispatch
          (remAfter t.demand
            ((sources.filter (fun s => !s.dispatchable)).map (deliverable cap t)))
          ((List.insertionSort costLE (sources.filter (fun s => s.dispatchable))).map
            (deliverable cap t))) := by
  rw [stepCost, stepDispatchAlloc, delivList, meritOrder, List.map_append,
    greedyDispatch_append]
  rw [List.zip_append (by rw [greedyDispatch_length]; simp)]
  rw [List.filter_append]
  have h1 : (((sources.filter (fun s => !s.dispatchable)).zip
      (greedyDispatch t.demand
        ((sources.filter (fun s => !s.dispatchable)).map (deliverable cap t)))).filter
      (fun p => p.1.dispatchable)) = [] := by
    rw [List.filter_eq_nil_iff]
    intro p hp
    have hm := (List.of_mem_zip hp).1
    rcases List.mem_filter.mp hm with ⟨_, h2⟩
    simp at h2
    simp [h2]
  have h2 : (((List.insertionSort costLE (sources.filter (fun s => s.dispatchable))).zip
      (greedyDispatch
        (remAfter t.demand
          ((sources.filter (fun s => !s.dispatchable)).map (deliverable cap t)))
        ((List.insertionSort costLE (sources.filter (fun s => s.dispatchable))).map
          (deliverable cap t)))).filter (fun p => p.1.dispatchable)) =
      ((List.insertionSort costLE (sources.filter (fun s => s.dispatchable))).zip
        (greedyDispatch
          (remAfter t.demand
            ((sources.filter (fun s => !s.dispatchable)).map (deliverable cap t)))
          ((List.insertionSort costLE (sources.filter (fun s => s.dispatchable))).map
            (deliverable cap t)))) := by
    rw [List.filter_eq_self]
    intro p hp
    have hm := (List.of_mem_zip hp).1
    have := (List.perm_insertionSort costLE _).mem_iff.mp hm
    rcases List.mem_filter.mp this with ⟨_, h3⟩
    simpa using h3
  rw [h1, h2]
  simp [wsum]

theorem sortD_mem_sources {sources : List Source} {s : Source}
    (h : s ∈ List.insertionSort costLE (sources.filter (fun x => x.dispatchable))) :
    s ∈ sources ∧ s.dispatchable = true := by
  have := (List.perm_insertionSort costLE _).mem_iff.mp h
  rcases List.mem_filter.mp this with ⟨h1, h2⟩
  exact ⟨h1, by simpa using h2⟩

theorem wsum_greedy_mono (c : ℚ) (u v : List Source) (a : Source)
    (du dv : List ℚ) (r0 dA dA2 : ℚ)
    (hlenu : u.length = du.length) (hlenv : v.length = dv.length)
    (hc : 0 ≤ c) (hca : a.unitCost = c) (hcv : ∀ s ∈ v, s.unitCost ≤ c)
    (hdv : ∀ d ∈ dv, 0 ≤ d)
    (hAA : dA ≤ dA2) (hr0 : 0 ≤ r0) :
    wsum (u ++ a :: v) (greedyDispatch r0 (du ++ dA :: dv)) ≤
      wsum (u ++ a :: v) (greedyDispatch r0 (du ++ dA2 :: dv)) := by
  have hgr1 : greedyDispatch r0 (du ++ dA :: dv) =
      greedyDispatch r0 du ++ min dA (remAfter r0 du) ::
        greedyDispatch (remAfter r0 du - min dA (remAfter r0 du)) dv := by
    rw [greedyDispatch_append]
    rfl
  have hgr2 : greedyDispatch r0 (du ++ dA2 :: dv) =
      greedyDispatch r0 du ++ min dA2 (remAfter r0 du) ::
        greedyDispatch (remAfter r0 du - min dA2 (remAfter r0 du)) dv := by
    rw [greedyDispatch_append]
    rfl
  have hr1 : 0 ≤ remAfter r0 du := remAfter_nonneg _ _ hr0
  have hlen_gu : u.length = (greedyDispatch r0 du).length := by
    rw [greedyDispatch_length]
    exact hlenu
  rw [hgr1, hgr2, wsum_append_cons _ _ _ _ _ _ hlen_gu,
    wsum_append_cons _ _ _ _ _ _ hlen_gu]
  have hminle : min dA (remAfter r0 du) ≤ min dA2 (remAfter r0 du) :=
    min_le_min hAA (le_refl _)
  have hforall : List.Forall₂ (fun x y => x ≤ y)
      (greedyDispatch (remAfter r0 du - min dA2 (remAfter r0 du)) dv)
      (greedyDispatch (remAfter r0 du - min dA (remAfter r0 du)) dv) :=
    greedyDispatch_mono_rem dv (by linarith)
  have hlenv2 : v.length =
      (greedyDispatch (remAfter r0 du - min dA (remAfter r0 du)) dv).length := by
    rw [greedyDispatch_length]
    exact hlenv
  have hws := wsum_sub_le c v
    (greedyDispatch (remAfter r0 du - min dA (remAfter r0 du)) dv)
    (greedyDispatch (remAfter r0 du - min dA2 (remAfter r0 du)) dv)
    hforall hlenv2 hcv
  have hs1 : (greedyDispatch (remAfter r0 du - min dA (remAfter r0 du)) dv).sum =
      min (remAfter r0 du - min dA (remAfter r0 du)) dv.sum :=
    greedyDispatch_sum _ _ hdv (sub_nonneg.mpr (min_le_right _ _))
  have hs2 : (greedyDispatch (remAfter r0 du - min dA2 (remAfter r0 du)) dv).sum =
      min (remAfter r0 du - min dA2 (remAfter r0 du)) dv.sum :=
    greedyDispatch_sum _ _ hdv (sub_nonneg.mpr (min_le_right _ _))
  have hkey : min dA (remAfter r0 du) +
      min (remAfter r0 du - min dA (remAfter r0 du)) dv.sum ≤
      min dA2 (remAfter r0 du) +
        min (remAfter r0 du - min dA2 (remAfter r0 du)) dv.sum := by
    rcases le_total (remAfter r0 du - min dA (remAfter r0 du)) dv.sum with h1 | h1 <;>
      rcases le_total (remAfter r0 du - min dA2 (remAfter r0 du)) dv.sum with h2 | h2
    · rw [min_eq_left h1, min_eq_left h2]
      linarith [hminle]
    · rw [min_eq_left h1, min_eq_right h2]
      linarith
    · rw [min_eq_right h1, min_eq_left h2]
      linarith
    · rw [min_eq_right h1, min_eq_right h2]
      linarith [hminle]
  rw [hs1, hs2] at hws
  have hsum_le : min (remAfter r0 du - min dA (remAfter r0 du)) dv.sum -
      min (remAfter r0 du - min dA2 (remAfter r0 du)) dv.sum ≤
      min dA2 (remAfter r0 du) - min dA (remAfter r0 du) := by linarith
  have hmul : c * (min (remAfter r0 du - min dA (remAfter r0 du)) dv.sum -
      min (remAfter r0 du - min dA2 (remAfter r0 du)) dv.sum) ≤
      c * (min dA2 (remAfter r0 du) - min dA (remAfter r0 du)) :=
    mul_le_mul_of_nonneg_left hsum_le hc
  have hring : c * (min dA2 (remAfter r0 du) - min dA (remAfter r0 du)) =
      c * min dA2 (remAfter r0 du) - c * min dA (remAfter r0 du) := by ring
  rw [hca]
  rw [hring] at hmul
  linarith

end EnergyGrid

namespace EnergyGrid

theorem stepCost_bump_mono (sources : List Source) (cap : CapVec) (t : Timestep)
    (a : Source) {inc : ℚ}
    (hnd : (sources.map Source.name).Nodup)
    (ha : a ∈ sources) (had : a.dispatchable = true)
    (hmax : ∀ b ∈ sources, b.dispatchable = true → b.unitCost ≤ a.unitCost)
    (hc0 : 0 ≤ a.unitCost)
    (hinc : 0 ≤ inc) (hdem : 0 ≤ t.demand)
    (hcap : ∀ s ∈ sources, 0 ≤ cap s.name)
    (havail : ∀ s ∈ sources, s.dispatchable = false → 0 ≤ t.availability s.name) :
    stepCost sources cap t ≤ stepCost sources (bump cap a.name inc) t := by
  have haf : a ∈ sources.filter (fun s => s.dispatchable) :=
    List.mem_filter.mpr ⟨ha, by simp [had]⟩
  have haSort : a ∈
      List.insertionSort costLE (sources.filter (fun s => s.dispatchable)) :=
    (List.perm_insertionSort costLE _).mem_iff.mpr haf
  obtain ⟨u, v, hsplit⟩ := List.append_of_mem haSort
  have hnodupM := meritOrder_names_nodup hnd
  rw [meritOrder, List.map_append] at hnodupM
  rcases List.nodup_append.mp hnodupM with ⟨_, hndS, hdisj⟩
  have hndSsplit : ((u ++ a :: v).map Source.name).Nodup := by
    rw [← hsplit]; exact hndS
  have hnames := names_split hndSsplit
  have hinterne : ∀ s ∈ sources.filter (fun x => !x.dispatchable),
      s.name ≠ a.name := by
    intro s hs heq
    have h1 : a.name ∈ (sources.filter (fun x => !x.dispatchable)).map Source.name := by
      rw [← heq]
      exact List.mem_map_of_mem Source.name hs
    have h2 : a.name ∈
        (List.insertionSort costLE (sources.filter (fun s => s.dispatchable))).map
          Source.name :=
      List.mem_map_of_mem Source.name haSort
    exact hdisj h1 h2
  have hmapI : (sources.filter (fun s => !s.dispatchable)).map
      (deliverable (bump cap a.name inc) t) =
      (sources.filter (fun s => !s.dispatchable)).map (deliverable cap t) :=
    List.map_congr_left
      (fun s hs => deliverable_bump_ne cap t a.name inc (hinterne s hs))
  have hmapu : u.map (deliverable (bump cap a.name inc) t) =
      u.map (deliverable cap t) :=
    List.map_congr_left
      (fun s hs => deliverable_bump_ne cap t a.name inc (hnames.1 s hs))
  have hmapv : v.map (deliverable (bump cap a.name inc) t) =
      v.map (deliverable cap t) :=
    List.map_congr_left
      (fun s hs => deliverable_bump_ne cap t a.name inc (hnames.2 s hs))
  have hdelivA0 : deliverable cap t a = cap a.name := by simp [deliverable, had]
  have hdelivA : deliverable (bump cap a.name inc) t a = cap a.name + inc := by
    simp [deliverable, had, bump]
  have hvmem : ∀ s ∈ v,
      s ∈ List.insertionSort costLE (sources.filter (fun x => x.dispatchable)) := by
    intro s hs
    rw [hsplit]
    exact List.mem_append_right _ (List.mem_cons_of_mem _ hs)
  have hcv : ∀ s ∈ v, s.unitCost ≤ a.unitCost := by
    intro s hs
    rcases sortD_mem_sources (hvmem s hs) with ⟨h1, h2⟩
    exact hmax s h1 h2
  have hdv : ∀ d ∈ v.map (deliverable cap t), 0 ≤ d := by
    intro d hd2
    rcases List.mem_map.mp hd2 with ⟨s, hs, rfl⟩
    exact deliverable_nonneg cap t hcap havail (sortD_mem_sources (hvmem s hs)).1
  have hL : stepCost sources cap t =
      wsum (u ++ a :: v)
        (greedyDispatch
          (remAfter t.demand
            ((sources.filter (fun s => !s.dispatchable)).map (deliverable cap t)))
          (u.map (deliverable cap t) ++ cap a.name :: v.map (deliverable cap t))) := by
    rw [stepCost_eq_wsum, hsplit, List.map_append, List.map_cons, hdelivA0]
  have hR : stepCost sources (bump cap a.name inc) t =
      wsum (u ++ a :: v)
        (greedyDispatch
          (remAfter t.demand
            ((sources.filter (fun s => !s.dispatchable)).map (deliverable cap t)))
          (u.map (deliverable cap t) ++
            (cap a.name + inc) :: v.map (deliverable cap t))) := by
    rw [stepCost_eq_wsum, hsplit, List.map_append, List.map_cons, hdelivA, hmapI,
      hmapu, hmapv]
  rw [hL, hR]
  exact wsum_greedy_mono a.unitCost u v a _ _ _ _ _ (by simp) (by simp) hc0 rfl
    hcv hdv (by linarith) (remAfter_nonneg _ _ hdem)

end EnergyGrid

namespace EnergyGrid

/-- C3 (amended): over a valid profile and a non-negative capacity vector with
distinct source names, increasing the installed capacity of a single source
never increases the total shortfall reported by the Dispatch Evaluator; and the
total cost never decreases provided the increased source is dispatchable with
positive unit cost and no other dispatchable source has a strictly greater unit
cost.  (As originally stated — for every source with positive unit cost — the
cost half is false: added cheap capacity can displace pricier dispatch.) -/
theorem capacity_monotonic_amended (sources : List Source) (cap : CapVec)
    (profile : List Timestep) (a : Source) (inc : ℚ)
    (hnd : (sources.map Source.name).Nodup)
    (ha : a ∈ sources)
    (hinc : 0 ≤ inc)
    (hdem : ∀ t ∈ profile, 0 ≤ t.demand)
    (hcap : ∀ s ∈ sources, 0 ≤ cap s.name)
    (havail : ∀ t ∈ profile, ∀ s ∈ sources,
      s.dispatchable = false → 0 ≤ t.availability s.name) :
    (scoreOf sources (bump cap a.name inc) profile).shortfall ≤
        (scoreOf sources cap profile).shortfall ∧
      (a.dispatchable = true → 0 < a.unitCost →
        (∀ b ∈ sources, b.dispatchable = true → b.unitCost ≤ a.unitCost) →
        (scoreOf sources cap profile).cost ≤
          (scoreOf sources (bump cap a.name inc) profile).cost) := by
  constructor
  · simp only [scoreOf]
    refine List.sum_le_sum ?_
    intro t ht
    exact stepShortfall_bump_mono sources cap t a.name hinc (hdem t ht) hcap
      (fun s hs hd => havail t ht s hs hd)
  · intro had hcpos hmax
    simp only [scoreOf]
    refine List.sum_le_sum ?_
    intro t ht
    exact stepCost_bump_mono sources cap t a hnd ha had hmax (le_of_lt hcpos)
      hinc (hdem t ht) hcap (fun s hs hd => havail t ht s hs hd)

/-- Witness for C3 (amended) at a concrete instance: a single dispatchable gas
source at unit cost 1, capacity 100 raised by 50, demand 100; the shortfall
does not increase and the cost does not decrease. -/
theorem capacity_monotonic_amended_witness :
    (scoreOf [⟨"gas", 1, 0, true⟩] (bump (fun _ => 100) "gas" 50)
        [⟨100, fun _ => 1⟩]).shortfall ≤
      (scoreOf [⟨"gas", 1, 0, true⟩] (fun _ => 100) [⟨100, fun _ => 1⟩]).shortfall ∧
    (scoreOf [⟨"gas", 1, 0, true⟩] (fun _ => 100) [⟨100, fun _ => 1⟩]).cost ≤
      (scoreOf [⟨"gas", 1, 0, true⟩] (bump (fun _ => 100) "gas" 50)
        [⟨100, fun _ => 1⟩]).cost := by
  have h := capacity_monotonic_amended [⟨"gas", 1, 0, true⟩] (fun _ => 100)
    [⟨100, fun _ => 1⟩] ⟨"gas", 1, 0, true⟩ 50
    (by simp) (by simp) (by norm_num) (by norm_num)
    (by intro s hs; norm_num) (by intro t ht s hs hd; simp at hs; simp [hs] at hd)
  exact ⟨h.1, h.2 rfl (by norm_num) (by intro b hb _; simp at hb; simp [hb])⟩

/-- Counterexample to C3 as stated: with dispatchable sources gas (unit cost 1)
and coal (unit cost 5) against demand 100, raising the gas capacity from 50 to
100 — a source of positive unit cost — makes the total cost reported by the
evaluator drop from 300 to 100, so increasing a positive-cost source's capacity
can strictly decrease total cost. -/
theorem capacity_cost_counterexample :
    evaluate [⟨"gas", 1, 0, true⟩, ⟨"coal", 5, 0, true⟩]
        (fun nm => if nm = "gas" then 50 else 100) [⟨100, fun _ => 1⟩] =
      Except.ok ⟨300, 0, 0⟩ ∧
    evaluate [⟨"gas", 1, 0, true⟩, ⟨"coal", 5, 0, true⟩]
        (bump (fun nm => if nm = "gas" then 50 else 100) "gas" 50)
        [⟨100, fun _ => 1⟩] =
      Except.ok ⟨100, 0, 0⟩ ∧
    (100 : ℚ) < 300 := by
  refine ⟨?_, ?_, by norm_num⟩
  · simp +decide [evaluate, validCapB, validProfileB, scoreOf, stepCost,
      stepEmissions, stepShortfall, stepDispatchAlloc, delivList, meritOrder,
      List.insertionSort, List.orderedInsert, costLE, greedyDispatch, deliverable,
      bump, min_def]
    norm_num
  · simp +decide [evaluate, validCapB, validProfileB, scoreOf, stepCost,
      stepEmissions, stepShortfall, stepDispatchAlloc, delivList, meritOrder,
      List.insertionSort, List.orderedInsert, costLE, greedyDispatch, deliverable,
      bump, min_def]
    norm_num

end EnergyGrid

namespace EnergyGrid

theorem optInitWeekly_lookup {A : Type} (worker : Int → Except Err A)
    (weeks : List Int) (w : Int) (hw : w ∈ weeks) :
    (optInitWeekly worker weeks).lookup w = some (worker w) := by
  induction weeks with
  | nil => cases hw
  | cons k ks ih =>
    by_cases hk : w = k
    · subst hk
      simp [optInitWeekly, pqdmCapture, List.lookup]
    · rcases List.mem_cons.mp hw with h | h
      · exact absurd h hk
      · have hbk : (w == k) = false := beq_eq_false_iff_ne.mpr hk
        have := ih h
        simpa [optInitWeekly, pqdmCapture, List.lookup, List.zip, hbk] using this

/-- C7: a failing week does not abort the batch run embedded from the notebook:
the resulting table still holds an entry for every week in the list, the failed
week is recorded with its error value (pqdm's default exception behaviour
captures a worker's exception as that task's result), and the table
construction is a total function, so the run itself cannot raise. -/
theorem batch_survives_week_failure {A : Type} (worker : Int → Except Err A)
    (weeks : List Int) (w : Int) (e : Err)
    (hw : w ∈ weeks) (hfail : worker w = Except.error e) :
    (optInitWeekly worker weeks).lookup w = some (Except.error e) ∧
      ∀ w2 ∈ weeks, ∃ r, (optInitWeekly worker weeks).lookup w2 = some r := by
  constructor
  · rw [optInitWeekly_lookup worker weeks w hw, hfail]
  · intro w2 hw2
    exact ⟨worker w2, optInitWeekly_lookup worker weeks w2 hw2⟩

/-- Witness for C7 at a concrete instance: three weeks of which week 2 fails
with Infeasible; the table records the failure for week 2 and has an entry for
every week. -/
theorem batch_survives_week_failure_witness :
    ((optInitWeekly (fun k => if k = 2 then Except.error Err.Infeasible
        else Except.ok k) [1, 2, 3]).lookup 2 =
      some (Except.error Err.Infeasible)) ∧
      ∀ w2 ∈ [1, 2, 3], ∃ r, (optInitWeekly (fun k => if k = 2 then
        Except.error Err.Infeasible else Except.ok k) [1, 2, 3]).lookup w2 =
          some r :=
  batch_survives_week_failure (fun k => if k = 2 then Except.error Err.Infeasible
    else Except.ok k) [1, 2, 3] 2 Err.Infeasible (by decide) rfl

/-- C10: the batch table pairs every week identifier with that week's own
worker result: the parallel map preserves input order, the positional zip never
mixes weeks, and looking up a week's integer key yields exactly its own solve
output; the key column of the table is the weeks sequence itself. -/
theorem batch_pairing_correct {A : Type} (worker : Int → Except Err A)
    (weeks : List Int) (w : Int) (hw : w ∈ weeks) :
    (optInitWeekly worker weeks).lookup w = some (worker w) ∧
      (optInitWeekly worker weeks).map Prod.fst = weeks := by
  refine ⟨optInitWeekly_lookup worker weeks w hw, ?_⟩
  rw [optInitWeekly]
  exact List.map_fst_zip weeks (pqdmCapture worker weeks) (by simp [pqdmCapture])

/-- Witness for C10 at a concrete instance: with three weeks and a worker that
tags its input, week 3 maps to its own result and the key column is the input
week order. -/
theorem batch_pairing_correct_witness :
    ((optInitWeekly (fun k => Except.ok (2 * k)) [4, 5, 6]).lookup 6 =
        some (Except.ok 12)) ∧
      (optInitWeekly (fun k => Except.ok (2 * k)) [4, 5, 6]).map Prod.fst =
        [4, 5, 6] := by
  have h := batch_pairing_correct (fun k => Except.ok (2 * k)) [4, 5, 6] 6
    (by decide)
  exact ⟨by rw [h.1]; rfl, h.2⟩

/-- C9: in the batch run embedded from the notebook, the persisted table is
written exactly once and only after every week's task has completed: the trace
is all task completions followed by a single write of the full in-memory table,
and no write event occurs among the task events. -/
theorem table_written_once_after_tasks {A : Type} (worker : Int → Except Err A)
    (weeks : List Int) :
    (notebookTrace worker weeks).filter isWrite =
        [BatchEvent.writeTable (optInitWeekly worker weeks)] ∧
      notebookTrace worker weeks =
        (weeks.map (fun w => BatchEvent.taskDone w (worker w))) ++
          [BatchEvent.writeTable (optInitWeekly worker weeks)] ∧
      ∀ e ∈ weeks.map (fun w => BatchEvent.taskDone w (worker w)),
        isWrite e = false := by
  refine ⟨?_, rfl, ?_⟩
  · rw [notebookTrace, List.filter_append]
    have h1 : (weeks.map (fun w => BatchEvent.taskDone w (worker w))).filter
        isWrite = [] := by
      rw [List.filter_eq_nil_iff]
      intro e he
      rcases List.mem_map.mp he with ⟨w2, _, rfl⟩
      simp [isWrite]
    rw [h1]
    rfl
  · intro e he
    rcases List.mem_map.mp he with ⟨w2, _, rfl⟩
    rfl

/-- Counterexample to C8 as stated: the saved table keyed by the integer 1 does
not equal the table read back after the JSON round trip, whose key is the
string "1" — `json.dumps` writes integer dictionary keys as strings and the
loader gets string keys back. -/
theorem roundtrip_counterexample :
    loadedAsPy [(1, [("solar", 100)])] ≠ tableAsPy [(1, [("solar", 100)])] := by
  simp [loadedAsPy, tableAsPy, dumpsLoads]

/-- C8 (amended): the dump/load round trip preserves the number of entries,
their order and every per-source capacity and score value exactly; each integer
week key comes back as its decimal-string form (JSON object keys are strings),
so the loaded table equals the saved table with its keys stringified rather
than the saved table itself. -/
theorem roundtrip_amended (t : WeeklyTable) :
    loadedAsPy t = (tableAsPy t).map (fun p => (stringifyKey p.1, p.2)) ∧
      (loadedAsPy t).map Prod.snd = (tableAsPy t).map Prod.snd := by
  constructor
  · simp [loadedAsPy, tableAsPy, dumpsLoads, stringifyKey, List.map_map,
      Function.comp]
  · simp [loadedAsPy, tableAsPy, dumpsLoads, List.map_map, Function.comp]

end EnergyGrid
